import Mathlib

/-!
# Verification of the JoP-Conversion-Tool canvas codec and tiling pipeline

A shallow embedding, in Lean 4, of the core of the Joy-of-Painting image
converter (files `src/Shared.py`, `src/JopImage.py`, `src/JopMultiBlockImage.py`),
together with proofs settling the frozen specification claims.

Modelling conventions:
* Python `str` is modelled as `List Char` (`PyStr`).
* Python machine-independent `int` is modelled by `Nat` / `Int`; the 32-bit
  signed reinterpretation done by `struct.unpack(">i", ...)` is explicit.
* Fallible operations (exceptions: `struct.error`, `ValueError`, `IndexError`,
  NaN propagation into `round`) are modelled with `Option` / `Except`.
* `PIL.Image` is modelled as an abstract RGB pixel buffer (a size plus a pixel
  function); `Image.crop` pads out-of-bounds pixels with black exactly as PIL
  does.
-/

namespace JoP

/-- Python strings are sequences of unicode characters. -/
abbrev PyStr := List Char

/-- An 8-bit-per-channel RGB triple `(r, g, b)`. -/
abbrev RGB := Nat × Nat × Nat

/-- A PIL image, seen as an abstract RGB pixel buffer: a size and a pixel
function (the image codec itself is an external collaborator). -/
structure PILImage where
  width : Nat
  height : Nat
  pix : Nat → Nat → RGB

/-- `Image.crop((left, top, right, bottom))`: a `(right - left) × (bottom - top)`
image; pixels requested outside the source are black, as PIL pads them. -/
def crop (img : PILImage) (left top right bottom : Nat) : PILImage :=
  ⟨right - left, bottom - top, fun x y =>
    if left + x < img.width ∧ top + y < img.height then img.pix (left + x) (top + y)
    else (0, 0, 0)⟩

/-! ## `src/Shared.py`: hexadecimal conversions -/

/-- The numeric value of one hexadecimal digit character, as accepted by
Python's `int(c, 16)` / `bytes.fromhex` (decimal digits, lowercase and
uppercase letters).  Non-hex characters are given the junk value `0`; they are
ruled out by `isHexDigitChar` wherever it matters. -/
def hexCharVal (c : Char) : Nat :=
  if 48 ≤ c.toNat ∧ c.toNat ≤ 57 then c.toNat - 48
  else if 97 ≤ c.toNat ∧ c.toNat ≤ 102 then c.toNat - 87
  else if 65 ≤ c.toNat ∧ c.toNat ≤ 70 then c.toNat - 55
  else 0

/-- Characters accepted as hexadecimal digits (`0-9`, `a-f`, `A-F`). -/
def isHexDigitChar (c : Char) : Bool :=
  (48 ≤ c.toNat && c.toNat ≤ 57) || (97 ≤ c.toNat && c.toNat ≤ 102)
    || (65 ≤ c.toNat && c.toNat ≤ 70)

/-- A lowercase hexadecimal digit character (what `hex`/`"%02x"` emit and
what well-formed pixel strings consist of). -/
def isLowerHexDigit (c : Char) : Bool :=
  (48 ≤ c.toNat && c.toNat ≤ 57) || (97 ≤ c.toNat && c.toNat ≤ 102)

/-- The big-endian numeric value of a string of hexadecimal digits (the value
computed by `bytes.fromhex` followed by big-endian unpacking). -/
def hexStrVal (l : List Char) : Nat :=
  l.foldl (fun a c => 16 * a + hexCharVal c) 0

/-- Reinterpret an unsigned 32-bit pattern as a signed two's-complement
integer, as `struct.unpack(">i", ...)` does. -/
def toSigned32 (u : Nat) : Int :=
  if u < 2 ^ 31 then (u : Int) else (u : Int) - 2 ^ 32

/-- `Shared.hexToInt`: `struct.unpack(">i", bytes.fromhex(h))[0]`.
`bytes.fromhex` demands hexadecimal digits and `">i"` demands exactly four
bytes (eight digits); otherwise `ValueError` / `struct.error` is raised,
modelled by `none`. -/
def hexToInt (h : PyStr) : Option Int :=
  if h.length = 8 ∧ ∀ c ∈ h, isHexDigitChar c then some (toSigned32 (hexStrVal h))
  else none

/-- The digit string (no `0x` prefix) produced by Python's `hex` builtin on a
non-negative integer: lowercase hexadecimal digits, no leading zeroes, and the
single digit `0` for zero. -/
def hexDigitsOf (m : Nat) : List Char :=
  if m = 0 then ['0'] else (Nat.digits 16 m).reverse.map Nat.digitChar

/-- `Shared.intToHex`: negative inputs are first masked with `& 0xFFFFFFFF`
(which for a negative Python int is reduction mod `2^32`), then rendered by
the `hex` builtin as `0x` followed by the digits. -/
def intToHex (n : Int) : PyStr :=
  '0' :: 'x' :: hexDigitsOf ((if n < 0 then n % 2 ^ 32 else n).toNat)

/-- `Shared.stringToAsciiInt`: the sum of the code points of a string. -/
def stringToAsciiInt (s : PyStr) : Nat :=
  (s.map Char.toNat).sum

/-! ## `src/Shared.py`: grid indexer -/

/-- `np.arange(start, stop, step)` for integer arguments with `step > 0`:
the values `start, start + step, ...` strictly below `stop`; its length is
`⌈(stop - start) / step⌉`.  (`np.arange` raises for `step = 0`; the callers
below guard against that case explicitly.) -/
def pyArange (start stop step : Nat) : List Nat :=
  (List.range ((stop - start + step - 1) / step)).map fun i => start + i * step

/-- Python's `round(t / 2)` for a natural `t`: `t / 2` is exact in binary
floating point, and `round` uses round-half-to-even (banker's rounding). -/
def pyRoundHalfNat (t : Nat) : Nat :=
  if t % 2 = 0 then t / 2
  else if (t / 2) % 2 = 0 then t / 2 else t / 2 + 1

/-- `Shared.tileGridIndices`: the row-major grid of tile origins.  Entry
`[i][j]` of `np.stack(np.meshgrid(x, y), axis=-1)` is `(x[j], y[i])`.
A zero tile extent makes `np.arange` raise (`none`). -/
def tileGridIndices (gridSize tileSize : Nat × Nat) (startAtZero : Bool) :
    Option (List (List (Nat × Nat))) :=
  if tileSize.1 = 0 ∨ tileSize.2 = 0 then none
  else
    let startPoint :=
      if startAtZero then (0, 0)
      else (pyRoundHalfNat tileSize.1, pyRoundHalfNat tileSize.2)
    let xs := pyArange startPoint.1 gridSize.1 tileSize.1
    let ys := pyArange startPoint.2 gridSize.2 tileSize.2
    some (ys.map fun y => xs.map fun x => (x, y))

/-! ## Failure-propagating list traversal

The Python loops below append to an accumulator list; an exception raised on
any element aborts the whole loop.  `mapOpt` is that control flow. -/

def mapOpt (f : α → Option β) : List α → Option (List β)
  | [] => some []
  | a :: l => do
    let b ← f a
    let r ← mapOpt f l
    pure (b :: r)

/-! ## `src/Shared.py`: average color -/

/-- The pixels of an image in row-major order (`np.array(image)` gives rows
top to bottom, then `np.reshape(..., (-1, 3))` flattens them). -/
def pixelList (img : PILImage) : List RGB :=
  (List.range img.height).flatMap fun y => (List.range img.width).map fun x => img.pix x y

/-- Lexicographic order on RGB rows, the order `np.unique` sorts by. -/
def colorLe (a b : RGB) : Bool :=
  if a.1 < b.1 then true
  else if b.1 < a.1 then false
  else if a.2.1 < b.2.1 then true
  else if b.2.1 < a.2.1 then false
  else a.2.2 ≤ b.2.2

/-- Insert a color into a sorted list of colors. -/
def insertSorted (c : RGB) : List RGB → List RGB
  | [] => [c]
  | d :: l => if colorLe c d then c :: d :: l else d :: insertSorted c l

/-- Insertion sort by `colorLe`; models the sorted output order of
`np.unique(..., axis=0)` (the order is irrelevant to the mean). -/
def sortColors : List RGB → List RGB
  | [] => []
  | c :: l => insertSorted c (sortColors l)

def sumRed (l : List RGB) : Nat := (l.map fun c => c.1).sum

def sumGreen (l : List RGB) : Nat := (l.map fun c => c.2.1).sum

def sumBlue (l : List RGB) : Nat := (l.map fun c => c.2.2).sum

/-- Python's `round(s / c)` for naturals with `0 < c`: round to nearest,
ties to even (banker's rounding).  This models
`round(np.mean(...))` exactly: for the sums arising here (at most
`255 * 2^24 < 2^53`) the float64 sum is exact, the single division is
correctly rounded and never crosses a half-integer boundary (the distance of
`s/c` from a non-representable tie is at least `1/(2c) ≥ 2^-25`, far above
the division's relative error), and `round` on float64 rounds half to even
exactly as coded here. -/
def pyRoundNatDiv (s c : Nat) : Nat :=
  if 2 * (s % c) < c then s / c
  else if c < 2 * (s % c) then s / c + 1
  else if (s / c) % 2 = 0 then s / c else s / c + 1

/-- `Shared.averageColor`: deduplicate the pixel colors (`np.unique` keeps
each distinct RGB row once, sorted), then average the distinct colors
channel-wise with `np.mean` and round each channel.  An empty region gives
`np.mean([]) = NaN` and `round(NaN)` raises (`none`). -/
def averageColor (image : PILImage) : Option RGB :=
  let colors := sortColors (pixelList image).dedup
  if colors.length = 0 then none
  else
    some (pyRoundNatDiv (sumRed colors) colors.length,
      pyRoundNatDiv (sumGreen colors) colors.length,
      pyRoundNatDiv (sumBlue colors) colors.length)

/-- Written from the spec's words, for comparison with `averageColor`
("returns the arithmetic mean of all distinct RGB colors present in the
region (duplicates are deduplicated before averaging, not weighted by pixel
count), each channel independently averaged and rounded to the nearest
integer" — ties broken to even, which always is a nearest integer). -/
def specMeanOfDistinctColors (image : PILImage) : RGB :=
  let distinct := (pixelList image).dedup
  (pyRoundNatDiv (sumRed distinct) distinct.length,
    pyRoundNatDiv (sumGreen distinct) distinct.length,
    pyRoundNatDiv (sumBlue distinct) distinct.length)

/-! ## `src/Shared.py`: power-of-two normalisation -/

/-- Nearest-neighbour resize.  The exact PIL sample positions do not matter to
any claim settled here (only the output size does). -/
def resizeNearest (img : PILImage) (w h : Nat) : PILImage :=
  ⟨w, h, fun x y => img.pix (x * img.width / w) (y * img.height / h)⟩

/-- `width & (width - 1) == 0`, the power-of-two test from the source (true
for `0` as well, in Python and here). -/
def isPow2 (n : Nat) : Bool := n &&& (n - 1) == 0

/-- `Shared.constrainToPowerOfTwo`: identity (a copy) when both dimensions
pass `isPow2`, otherwise resize to `2 ^ ⌈log2 _⌉` on each axis. -/
def constrainToPowerOfTwo (img : PILImage) : PILImage :=
  if isPow2 img.width ∧ isPow2 img.height then img
  else resizeNearest img (2 ^ Nat.clog 2 img.width) (2 ^ Nat.clog 2 img.height)

/-! ## `src/JopImage.py` -/

/-- The closed enumeration of canvas kinds. -/
inductive JopCanvasType where
  | SMALL
  | LARGE
  | LONG
  | TALL
deriving DecidableEq

/-- The `Enum` ordinal of a canvas type (`SMALL = 0, LARGE = 1, LONG = 2,
TALL = 3`). -/
def JopCanvasType.value : JopCanvasType → Int
  | .SMALL => 0
  | .LARGE => 1
  | .LONG => 2
  | .TALL => 3

/-- `JopCanvasType(v)`: enum lookup by value; an unknown ordinal raises
`ValueError` (`none`). -/
def JopCanvasType.ofValue (v : Int) : Option JopCanvasType :=
  if v = 0 then some .SMALL
  else if v = 1 then some .LARGE
  else if v = 2 then some .LONG
  else if v = 3 then some .TALL
  else none

/-- `JopCanvasType.getSize`: the native `.paint` pixel size `(width, height)`. -/
def JopCanvasType.getSize : JopCanvasType → Nat × Nat
  | .SMALL => (16, 16)
  | .LARGE => (32, 32)
  | .LONG => (32, 16)
  | .TALL => (16, 32)

/-- `JopImage`: one canvas.  `pixels` is the list of six-hex-digit color
strings, row-major; `name` is the `<uuid>_<number>` identifier. -/
structure JopImage where
  canvasType : JopCanvasType
  author : PyStr
  title : PyStr
  pixels : List PyStr
  name : PyStr
deriving DecidableEq

/-- `JopImage._ROOT_UUID`. -/
def ROOT_UUID : PyStr := ("d1ebe29f-f4e9-4572-83cd-8b2cdbfc2420").data

/-- The in-memory image of a written `.paint` file: the seven fields of the
root compound, in the order `saveJopImage` writes them.  The byte-level NBT
encoding of this compound is done by `nbtlib` (an external collaborator that
round-trips the compound faithfully), so the codec claims are settled at the
level of these field values. -/
structure JopFile where
  generation : Int
  ct : Int
  pixels : List Int
  v : Int
  author : PyStr
  name : PyStr
  title : PyStr

/-- `JopImage.saveJopImage` (the value content of the file it writes):
`generation = _CANVAS_GEN = 1`, `ct` is the canvas ordinal, each pixel string
is prefixed with the forced alpha byte `ff` and packed by `hexToInt`,
`v = _CANVAS_VER = 2`, and the three metadata strings are copied.  A pixel
string on which `hexToInt` raises aborts the write (`none`). -/
def JopImage.saveJopImage (img : JopImage) : Option JopFile := do
  let ints ← mapOpt (fun p => hexToInt ('f' :: 'f' :: p)) img.pixels
  pure ⟨1, img.canvasType.value, ints, 2, img.author, img.name, img.title⟩

/-- The pixel-string decoding step of `JopImage.fromJopFile`:
`intToHex(pixel)[4:]` (drop `0x` plus the two alpha digits). -/
def decodePixelChars (n : Int) : PyStr :=
  (intToHex n).drop 4

/-- `JopImage.fromJopFile` (on the loaded compound): decode every pixel int
with `intToHex(...)[4:]`, then build the object; an unknown `ct` ordinal
raises (`none`).  The `generation` and `v` fields are never consulted. -/
def JopImage.fromJopFile (f : JopFile) : Option JopImage := do
  let pixels := f.pixels.map decodePixelChars
  let ct ← JopCanvasType.ofValue f.ct
  pure ⟨ct, f.author, f.title, pixels, f.name⟩

/-- `"%02x"`: lowercase hexadecimal, zero-padded to at least two digits. -/
def fmtHex02 (n : Nat) : PyStr :=
  if n < 16 then ['0', Nat.digitChar n] else hexDigitsOf n

/-- `"%02x%02x%02x" % (r, g, b)`. -/
def fmtRGB (c : RGB) : PyStr :=
  fmtHex02 c.1 ++ fmtHex02 c.2.1 ++ fmtHex02 c.2.2

/-- `JopImage.fromImage`: tile size by floor division of the source size by
the native canvas size, zero-start grid indices over the source extent, one
averaged color per tile appended in row-major order.  `name` is the caller's
identifier (when the caller passes `None` the source substitutes
`_ROOT_UUID` plus the current unix timestamp; all claims settled here concern
an explicitly supplied name, or do not depend on it). -/
def JopImage.fromImage (image : PILImage) (canvas : JopCanvasType)
    (title author name : PyStr) : Option JopImage := do
  let canvasSize := canvas.getSize
  let tileSize := (image.width / canvasSize.1, image.height / canvasSize.2)
  let gridIndices ← tileGridIndices (image.width, image.height) tileSize true
  let pixelRows ← mapOpt (fun gridRow =>
    mapOpt (fun gridTopLeft => do
      let avgColor ← averageColor (crop image gridTopLeft.1 gridTopLeft.2
        (gridTopLeft.1 + tileSize.1) (gridTopLeft.2 + tileSize.2))
      pure (fmtRGB avgColor)) gridRow) gridIndices
  pure ⟨canvas, author, title, pixelRows.flatten, name⟩

/-- Python `int(s, 16)` on a string slice: fails on an empty slice or a
non-hexadecimal character, else gives the big-endian value. -/
def pyIntHex (l : List Char) : Option Nat :=
  if l ≠ [] ∧ ∀ c ∈ l, isHexDigitChar c then some (hexStrVal l) else none

/-- The per-pixel color reconstruction done by `JopImage.getImage`
(lines 242-244): `r = int(pixel[0:2], 16)`, `g = int(pixel[2:4], 16)`,
`b = int(pixel[4:6], 16)`. -/
def parseRGBpix (l : PyStr) : Option RGB := do
  let r ← pyIntHex (l.take 2)
  let g ← pyIntHex ((l.drop 2).take 2)
  let b ← pyIntHex ((l.drop 4).take 2)
  pure (r, g, b)

/-! ## `src/JopMultiBlockImage.py` -/

/-- Little-endian decimal digits of a positive number, with explicit fuel so
that the kernel can evaluate it (the fuel `n + 1` always suffices). -/
def natDigitsAux : Nat → Nat → List Nat
  | 0, _ => []
  | fuel + 1, n => if n < 10 then [n] else n % 10 :: natDigitsAux fuel (n / 10)

/-- Python `str(n)` for a natural number: decimal digits, most significant
first, `"0"` for zero. -/
def natStr (n : Nat) : PyStr :=
  if n = 0 then ['0'] else (natDigitsAux (n + 1) n).reverse.map Nat.digitChar

/-- `JopMultiBlockImage`: the canvas grid.  `__init__` assigns exactly the
attributes `author`, `title` and `imageGrid` (the duplicate-name check it
also runs only prints a warning; construction always proceeds). -/
structure JopMultiBlockImage where
  author : PyStr
  title : PyStr
  imageGrid : List (List JopImage)

/-- `JopMultiBlockImage.generatePaintingId`:
`asciiSum(f"{title} {author}") + asciiSum(uuid4()) + randint(0, 10000)`.
The fresh UUID string and the random draw are the generator's two
nondeterministic inputs, passed here explicitly. -/
def generatePaintingId (title author uuidStr : PyStr) (rand : Nat) : Nat :=
  stringToAsciiInt (title ++ ' ' :: author) + stringToAsciiInt uuidStr + rand

/-- The per-cell title `f"{title} ({x}, {y})"`. -/
def cellTitle (title : PyStr) (x y : Nat) : PyStr :=
  title ++ (' ' :: '(' :: natStr x) ++ (',' :: ' ' :: natStr y) ++ [')']

/-- The per-cell name `f"{JopImage._ROOT_UUID}_{curId}"`. -/
def cellName (curId : Nat) : PyStr :=
  ROOT_UUID ++ '_' :: natStr curId

/-- `JopMultiBlockImage.fromImage`: constrain the source to power-of-two
dimensions, tile size by floor division of the constrained size by the grid
size, zero-start grid indices, then one `JopImage` per grid cell in row-major
order.  The mutable counter `curId` starts at the root painting id (`rootId`,
the value returned by `generatePaintingId`) and increments once per cell, so
the cell visited at row-major index `y * gridWidth + x` uses
`rootId + (y * gridWidth + x)`.  Out-of-range indexing of the index grid
(`IndexError`) and failures inside `JopImage.fromImage` abort construction
(`none`); a zero tile size makes `np.arange` raise (for a zero grid dimension
the source raises `ZeroDivisionError` already at the tile-size division —
both are `none` here). -/
def JopMultiBlockImage.fromImage (gridSize : Nat × Nat) (image : PILImage)
    (title author : PyStr) (canvas : JopCanvasType) (rootId : Nat) :
    Option JopMultiBlockImage := do
  let imageSized := constrainToPowerOfTwo image
  let tileSize := (imageSized.width / gridSize.1, imageSized.height / gridSize.2)
  let gridIndicies ← tileGridIndices (imageSized.width, imageSized.height) tileSize true
  let imageGrid ← mapOpt (fun y =>
    mapOpt (fun x => do
      let gridTopLeft ← (gridIndicies.get? y).bind fun row => row.get? x
      JopImage.fromImage
        (crop imageSized gridTopLeft.1 gridTopLeft.2
          (gridTopLeft.1 + tileSize.1) (gridTopLeft.2 + tileSize.2))
        canvas (cellTitle title x y) author (cellName (rootId + (y * gridSize.1 + x))))
      (List.range gridSize.1)) (List.range gridSize.2)
  pure ⟨author, title, imageGrid⟩

/-- The flat name list `[image.name for row in self.imageGrid for image in row]`. -/
def namesList (m : JopMultiBlockImage) : List PyStr :=
  m.imageGrid.flatMap fun row => row.map fun image => image.name

/-- `JopMultiBlockImage.areNamesValid`: `len(names) == len(set(names))`. -/
def areNamesValid (m : JopMultiBlockImage) : Bool :=
  (namesList m).length == (namesList m).dedup.length

/-! ### Python attribute semantics of `JopMultiBlockImage`

`__str__` reads `self.name`, an attribute no constructor or method of the
class ever assigns; evaluating it raises `AttributeError`.  The instance
attribute dictionary is modelled explicitly: it holds exactly the three
attributes `__init__` assigns. -/

/-- A value held in a `JopMultiBlockImage` attribute slot. -/
inductive MbAttrValue where
  | str (s : PyStr)
  | grid (g : List (List JopImage))

/-- Attribute lookup on a `JopMultiBlockImage` instance: `__init__` (the only
constructor, also the one `fromImage` finishes with) assigns `author`,
`title` and `imageGrid` and nothing else; the class body defines no further
data attribute named `name`. -/
def mbAttrLookup (m : JopMultiBlockImage) (a : String) : Option MbAttrValue :=
  if a = "author" then some (.str m.author)
  else if a = "title" then some (.str m.title)
  else if a = "imageGrid" then some (.grid m.imageGrid)
  else none

/-- The apostrophe character, used by Python `repr` of strings. -/
def quoteChar : Char := Char.ofNat 39

/-- Python `repr` of a string as it appears inside a rendered list: the
string between apostrophes (escaping never arises for hex-digit pixels). -/
def pyStrRepr (s : PyStr) : PyStr := quoteChar :: s ++ [quoteChar]

/-- `", ".join`-style rendering of list elements. -/
def joinCommaSpace (l : List PyStr) : PyStr :=
  (l.intersperse (", ").data).flatten

/-- Python `repr` of a list given renderings of its elements. -/
def pyListRepr (elems : List PyStr) : PyStr :=
  '[' :: joinCommaSpace elems ++ [']']

/-- `str(JopCanvasType.X)` as interpolated by an f-string. -/
def canvasTypeStr : JopCanvasType → PyStr
  | .SMALL => ("JopCanvasType.SMALL").data
  | .LARGE => ("JopCanvasType.LARGE").data
  | .LONG => ("JopCanvasType.LONG").data
  | .TALL => ("JopCanvasType.TALL").data

/-- `JopImage.__str__`:
`f"JopImage({self.canvasType}, {self.author}, {self.title}, {self.pixels}, {self.name})"`. -/
def jopImageStr (j : JopImage) : PyStr :=
  ("JopImage(").data ++ canvasTypeStr j.canvasType
    ++ (", ").data ++ j.author
    ++ (", ").data ++ j.title
    ++ (", ").data ++ pyListRepr (j.pixels.map pyStrRepr)
    ++ (", ").data ++ j.name ++ [')']

/-- Python rendering of the 2-dimensional `imageGrid` list (inner objects by
`JopImage.__repr__ = JopImage.__str__`). -/
def imageGridRepr (g : List (List JopImage)) : PyStr :=
  pyListRepr (g.map fun row => pyListRepr (row.map jopImageStr))

/-- `JopMultiBlockImage.__str__`:
`f"JopMultiBlockImage({self.name}, {self.author}, {self.title}, {self.imageGrid})"`.
The interpolations evaluate left to right, `self.name` first; a failed
attribute lookup raises `AttributeError` before anything is rendered. -/
def JopMultiBlockImage.strOf (m : JopMultiBlockImage) : Except String PyStr :=
  match mbAttrLookup m ("name") with
  | none => Except.error ("AttributeError: name")
  | some v =>
    Except.ok (("JopMultiBlockImage(").data ++
      (match v with
        | .str s => s
        | .grid g => imageGridRepr g)
      ++ (", ").data ++ m.author
      ++ (", ").data ++ m.title
      ++ (", ").data ++ imageGridRepr m.imageGrid ++ [')'])

/-- `JopMultiBlockImage.__repr__`: `return self.__str__()`. -/
def JopMultiBlockImage.reprOf (m : JopMultiBlockImage) : Except String PyStr :=
  m.strOf

/-! ## Concrete inputs used by counterexamples and witnesses -/

/-- A uniformly black `w × h` source image. -/
def blackImage (w h : Nat) : PILImage := ⟨w, h, fun _ _ => (0, 0, 0)⟩

/-- The 2×2 region of the spec's average-color example: one row of
`(0,0,0)`, then `(255,255,255)` and `(10,10,10)`. -/
def regionC7 : PILImage :=
  ⟨2, 2, fun x y =>
    if y = 0 then (0, 0, 0)
    else if x = 0 then (255, 255, 255) else (10, 10, 10)⟩

/-- A single-pixel canvas object holding the pure-red pixel string. -/
def oneRedPixelImage : JopImage :=
  ⟨.LARGE, [], [], [("ff0000").data], []⟩

/-- A well-formed pixel string: six lowercase hexadecimal digits, which is
what `fromImage` (via `"%02x%02x%02x"`) and `fromJopFile` produce. -/
def validPixelHex (p : PyStr) : Bool :=
  p.length == 6 && p.all isLowerHexDigit

/-- The unsigned 32-bit two's-complement bit pattern of a signed value. -/
def unsigned32 (n : Int) : Nat :=
  (n % 2 ^ 32).toNat

/-! ## Basic lemmas about the hex machinery -/

theorem hexCharVal_lt (c : Char) : hexCharVal c < 16 := by
  unfold hexCharVal
  split_ifs <;> omega

theorem hexStrVal_eq_ofDigits (l : List Char) (a : Nat) :
    l.foldl (fun a c => 16 * a + hexCharVal c) a
      = Nat.ofDigits 16 ((l.map hexCharVal).reverse) + a * 16 ^ l.length := by
  induction l generalizing a with
  | nil => simp [Nat.ofDigits]
  | cons c l ih =>
    simp only [List.foldl_cons, ih, List.map_cons, List.reverse_cons,
      Nat.ofDigits_append, List.length_reverse, List.length_map,
      Nat.ofDigits_singleton, List.length_cons]
    ring

theorem hexStrVal_def (l : List Char) :
    hexStrVal l = Nat.ofDigits 16 ((l.map hexCharVal).reverse) := by
  simpa using hexStrVal_eq_ofDigits l 0

theorem isHexDigitChar_of_lower {c : Char} (h : isLowerHexDigit c = true) :
    isHexDigitChar c = true := by
  unfold isLowerHexDigit at h
  unfold isHexDigitChar
  simp only [Bool.or_eq_true, Bool.and_eq_true, decide_eq_true_eq] at h ⊢
  tauto

theorem char_eq_of_toNat_eq {a b : Char} (h : a.toNat = b.toNat) : a = b :=
  Char.eq_of_val_eq (UInt32.ext h)

theorem digitChar_toNat_on_lower :
    ∀ k, k < 103 → (48 ≤ k ∧ k ≤ 57) ∨ (97 ≤ k ∧ k ≤ 102) →
      (Nat.digitChar (if 48 ≤ k ∧ k ≤ 57 then k - 48 else k - 87)).toNat = k := by
  decide

theorem digitChar_hexCharVal {c : Char} (h : isLowerHexDigit c = true) :
    Nat.digitChar (hexCharVal c) = c := by
  unfold isLowerHexDigit at h
  simp only [Bool.or_eq_true, Bool.and_eq_true, decide_eq_true_eq] at h
  have hv : hexCharVal c
      = if 48 ≤ c.toNat ∧ c.toNat ≤ 57 then c.toNat - 48 else c.toNat - 87 := by
    unfold hexCharVal
    split_ifs <;> omega
  apply char_eq_of_toNat_eq
  rw [hv]
  exact digitChar_toNat_on_lower c.toNat (by omega) h

theorem isLowerHexDigit_digitChar : ∀ d, d < 16 → isLowerHexDigit (Nat.digitChar d) = true := by
  decide

theorem hexCharVal_digitChar : ∀ d, d < 16 → hexCharVal (Nat.digitChar d) = d := by
  decide

theorem isHexDigitChar_digitChar : ∀ d, d < 16 → isHexDigitChar (Nat.digitChar d) = true :=
  fun d hd => isHexDigitChar_of_lower (isLowerHexDigit_digitChar d hd)

/-! ## Lemmas about `pyArange` and the grid indexer -/

theorem pyArange_length (start stop step : Nat) :
    (pyArange start stop step).length = (stop - start + step - 1) / step := by
  simp [pyArange]

theorem pyArange_head (start stop step : Nat) (hstep : 0 < step) (h : start < stop) :
    (pyArange start stop step).head? = some start := by
  unfold pyArange
  have hc : 1 ≤ (stop - start + step - 1) / step := by
    rw [Nat.le_div_iff_mul_le hstep]
    omega
  obtain ⟨k, hk⟩ : ∃ k, (stop - start + step - 1) / step = k + 1 := by
    exact ⟨_, (Nat.succ_pred_eq_of_pos hc).symm⟩
  rw [hk, List.range_succ_eq_map]
  simp

theorem pyArange_zero_mem_lt {stop step x : Nat} (hstep : 0 < step)
    (hx : x ∈ pyArange 0 stop step) : x < stop := by
  unfold pyArange at hx
  simp only [List.mem_map, List.mem_range] at hx
  obtain ⟨i, hi, rfl⟩ := hx
  have h1 : i + 1 ≤ (stop - 0 + step - 1) / step := hi
  have h2 : (i + 1) * step ≤ stop - 0 + step - 1 := by
    calc (i + 1) * step ≤ (stop - 0 + step - 1) / step * step :=
          Nat.mul_le_mul_right _ h1
      _ ≤ stop - 0 + step - 1 := Nat.div_mul_le_self _ _
  rw [Nat.succ_mul] at h2
  omega

theorem tileGridIndices_zero_some {gw gh tw th : Nat} (htw : 0 < tw) (hth : 0 < th) :
    tileGridIndices (gw, gh) (tw, th) true
      = some ((pyArange 0 gh th).map fun y => (pyArange 0 gw tw).map fun x => (x, y)) := by
  unfold tileGridIndices
  rw [if_neg (by simp; omega)]
  simp

theorem tileGridIndices_half_some {gw gh tw th : Nat} (htw : 0 < tw) (hth : 0 < th) :
    tileGridIndices (gw, gh) (tw, th) false
      = some ((pyArange (pyRoundHalfNat th) gh th).map fun y =>
          (pyArange (pyRoundHalfNat tw) gw tw).map fun x => (x, y)) := by
  unfold tileGridIndices
  rw [if_neg (by simp; omega)]
  simp

/-! ## Permutation lemmas for the color sort -/

theorem insertSorted_perm (c : RGB) (l : List RGB) :
    List.Perm (insertSorted c l) (c :: l) := by
  induction l with
  | nil => exact List.Perm.refl _
  | cons d l ih =>
    unfold insertSorted
    split
    · exact List.Perm.refl _
    · exact ((ih.cons d).trans (List.Perm.swap c d l))

theorem sortColors_perm (l : List RGB) : List.Perm (sortColors l) l := by
  induction l with
  | nil => exact List.Perm.refl _
  | cons c l ih => exact (insertSorted_perm c (sortColors l)).trans (ih.cons c)

theorem sortColors_sumRed (l : List RGB) : sumRed (sortColors l) = sumRed l :=
  ((sortColors_perm l).map _).sum_eq

theorem sortColors_sumGreen (l : List RGB) : sumGreen (sortColors l) = sumGreen l :=
  ((sortColors_perm l).map _).sum_eq

theorem sortColors_sumBlue (l : List RGB) : sumBlue (sortColors l) = sumBlue l :=
  ((sortColors_perm l).map _).sum_eq

theorem sortColors_length (l : List RGB) : (sortColors l).length = l.length :=
  (sortColors_perm l).length_eq

theorem sum_map_range_const (n w : Nat) : ((List.range n).map fun _ => w).sum = n * w := by
  induction n with
  | zero => simp
  | succ n ih =>
    rw [List.range_succ, List.map_append, List.sum_append]
    simp [ih, Nat.succ_mul]

theorem pixelList_length (img : PILImage) :
    (pixelList img).length = img.width * img.height := by
  unfold pixelList
  rw [List.length_flatMap]
  simp only [Function.comp_def, List.length_map, List.length_range]
  rw [sum_map_range_const]
  exact Nat.mul_comm _ _

/-! ## Claim theorems -/

/-- **C10** — For every constructed `JopMultiBlockImage`, `__str__` and
`__repr__` always raise: they read a `name` attribute that no constructor or
method of the class ever assigns, so the error branch is reached on every
call. -/
theorem claim_C10_str_repr_always_raise (m : JopMultiBlockImage) :
    m.strOf = Except.error ("AttributeError: name")
      ∧ m.reprOf = Except.error ("AttributeError: name") := by
  constructor <;> rfl

/-- **C8, counterexample** — The half-offset grid indexer does *not* place its
first origin at `(⌊tileW/2⌋, ⌊tileH/2⌋)`: for tile size `(3, 3)` Python's
`round(3 / 2)` rounds the tie `1.5` to the even value `2`, so the first
origin is `(2, 2)` while `(⌊3/2⌋, ⌊3/2⌋) = (1, 1)`. -/
theorem claim_C8_counterexample :
    ((tileGridIndices (10, 10) (3, 3) false).map fun g => g.head?.bind List.head?)
        = some (some (2, 2))
      ∧ (2, 2) ≠ ((3 : Nat) / 2, (3 : Nat) / 2) := by
  decide

/-- **C8, amended** — In half-offset mode the first origin is
`(round(tileW/2), round(tileH/2))` under Python's round-half-to-even, which
equals `⌊t/2⌋` except when `t ≡ 3 (mod 4)`, where it is `⌊t/2⌋ + 1`. -/
theorem claim_C8_amended :
    (∀ t, pyRoundHalfNat t = if t % 4 = 3 then t / 2 + 1 else t / 2)
      ∧ ∀ gx gy tx ty, 0 < tx → 0 < ty →
          pyRoundHalfNat tx < gx → pyRoundHalfNat ty < gy →
          ∃ g, tileGridIndices (gx, gy) (tx, ty) false = some g
            ∧ g.head?.bind List.head? = some (pyRoundHalfNat tx, pyRoundHalfNat ty) := by
  constructor
  · intro t
    unfold pyRoundHalfNat
    split_ifs <;> omega
  · intro gx gy tx ty htx hty hx hy
    refine ⟨_, tileGridIndices_half_some htx hty, ?_⟩
    have hys := pyArange_head (pyRoundHalfNat ty) gy ty hty hy
    have hxs := pyArange_head (pyRoundHalfNat tx) gx tx htx hx
    obtain ⟨y0, ys, hys'⟩ : ∃ y0 ys, pyArange (pyRoundHalfNat ty) gy ty = y0 :: ys := by
      cases h : pyArange (pyRoundHalfNat ty) gy ty with
      | nil => rw [h] at hys; simp at hys
      | cons a l => exact ⟨a, l, rfl⟩
    obtain ⟨x0, xs, hxs'⟩ : ∃ x0 xs, pyArange (pyRoundHalfNat tx) gx tx = x0 :: xs := by
      cases h : pyArange (pyRoundHalfNat tx) gx tx with
      | nil => rw [h] at hxs; simp at hxs
      | cons a l => exact ⟨a, l, rfl⟩
    rw [hys'] at hys
    rw [hxs'] at hxs
    simp only [List.head?_cons, Option.some.injEq] at hys hxs
    subst hys hxs
    rw [hys', hxs']
    simp

/-- **C8, witness** for the amended theorem at tile size `(3, 3)`. -/
theorem claim_C8_witness :
    ∃ g, tileGridIndices (10, 10) (3, 3) false = some g
      ∧ g.head?.bind List.head? = some (pyRoundHalfNat 3, pyRoundHalfNat 3) :=
  claim_C8_amended.2 10 10 3 3 (by decide) (by decide) (by decide) (by decide)

/-- **C4, counterexample** — Zero-start origins are *not* restricted to
`origin + tileSize ≤ totalExtent`: with extent `(3, 3)` and tile `(2, 2)` the
indexer produces the origin `(2, 2)` although `2 + 2 > 3` (the partial
trailing tile is included). -/
theorem claim_C4_counterexample :
    tileGridIndices (3, 3) (2, 2) true = some [[(0, 0), (2, 0)], [(0, 2), (2, 2)]]
      ∧ ¬((2 : Nat) + 2 ≤ 3) := by
  decide

/-- **C4, amended** — For positive tile sizes every zero-start origin
satisfies `ox < totalW` and `oy < totalH` (origins lie strictly inside the
extent, but the tile laid at the last origin may cross it), and the per-axis
origin counts are the ceilings `⌈totalExtent / tileSize⌉`, not the floors. -/
theorem claim_C4_amended (gw gh tw th : Nat) (g : List (List (Nat × Nat)))
    (htw : 0 < tw) (hth : 0 < th)
    (hg : tileGridIndices (gw, gh) (tw, th) true = some g) :
    (∀ row ∈ g, ∀ o ∈ row, o.1 < gw ∧ o.2 < gh)
      ∧ g.length = (gh + th - 1) / th
      ∧ ∀ row ∈ g, row.length = (gw + tw - 1) / tw := by
  rw [tileGridIndices_zero_some htw hth, Option.some.injEq] at hg
  subst hg
  refine ⟨?_, ?_, ?_⟩
  · intro row hrow o ho
    simp only [List.mem_map] at hrow
    obtain ⟨y, hy, rfl⟩ := hrow
    simp only [List.mem_map] at ho
    obtain ⟨x, hx, rfl⟩ := ho
    exact ⟨pyArange_zero_mem_lt htw hx, pyArange_zero_mem_lt hth hy⟩
  · rw [List.length_map, pyArange_length, Nat.sub_zero]
  · intro row hrow
    simp only [List.mem_map] at hrow
    obtain ⟨y, hy, rfl⟩ := hrow
    rw [List.length_map, pyArange_length, Nat.sub_zero]

/-- **C4, witness** for the amended theorem at extent `(3, 3)`, tile `(2, 2)`. -/
theorem claim_C4_witness :
    (∀ row ∈ [[((0 : Nat), (0 : Nat)), (2, 0)], [(0, 2), (2, 2)]], ∀ o ∈ row, o.1 < 3 ∧ o.2 < 3)
      ∧ ([[((0 : Nat), (0 : Nat)), (2, 0)], [(0, 2), (2, 2)]] : List (List (Nat × Nat))).length
          = (3 + 2 - 1) / 2
      ∧ ∀ row ∈ [[((0 : Nat), (0 : Nat)), (2, 0)], [(0, 2), (2, 2)]], row.length = (3 + 2 - 1) / 2 :=
  claim_C4_amended 3 3 2 2 _ (by decide) (by decide) (by decide)

/-! ## Claim C7: average color -/

/-- **C7** — The color sampler returns the channel-wise rounded mean of the
*distinct* colors of the region (duplicates counted once); on the spec's 2×2
example region `{(0,0,0),(0,0,0),(255,255,255),(10,10,10)}` it returns
`(88, 88, 88)`.  An empty region is the only failure. -/
theorem claim_C7_average_of_distinct_colors :
    (∀ img : PILImage,
        averageColor img =
          if 0 < img.width ∧ 0 < img.height then some (specMeanOfDistinctColors img)
          else none)
      ∧ averageColor regionC7 = some (88, 88, 88) := by
  constructor
  · intro img
    unfold averageColor specMeanOfDistinctColors
    by_cases h : 0 < img.width ∧ 0 < img.height
    · rw [if_pos h]
      have hne : (pixelList img).dedup ≠ [] := by
        rw [ne_eq, List.dedup_eq_nil, ← List.length_eq_zero, pixelList_length]
        exact Nat.mul_ne_zero (by omega) (by omega)
      have hlen : ¬(sortColors (pixelList img).dedup).length = 0 := by
        rw [sortColors_length, List.length_eq_zero]
        exact hne
      rw [if_neg hlen]
      rw [sortColors_sumRed, sortColors_sumGreen, sortColors_sumBlue, sortColors_length]
    · rw [if_neg h]
      have hz : img.width * img.height = 0 := by
        rcases Nat.eq_zero_or_pos img.width with h1 | h1
        · simp [h1]
        rcases Nat.eq_zero_or_pos img.height with h2 | h2
        · simp [h2]
        exact absurd ⟨h1, h2⟩ h
      have hnil : pixelList img = [] := by
        rw [← List.length_eq_zero, pixelList_length]
        exact hz
      rw [if_pos]
      rw [hnil]
      rfl
  · decide

/-! ## Concrete digit evaluations shared by the codec claims -/

theorem digits16_255 : Nat.digits 16 255 = [15, 15] := by
  have h : (255 : Nat) = Nat.ofDigits 16 [15, 15] := by simp [Nat.ofDigits]
  rw [h, Nat.digits_ofDigits 16 (by norm_num) _ (by decide) (by decide)]

theorem digits16_ffff0000 : Nat.digits 16 4294901760 = [0, 0, 0, 0, 15, 15, 15, 15] := by
  have h : (4294901760 : Nat) = Nat.ofDigits 16 [0, 0, 0, 0, 15, 15, 15, 15] := by
    simp [Nat.ofDigits]
  rw [h, Nat.digits_ofDigits 16 (by norm_num) _ (by decide) (by decide)]

theorem fmtRGB_red : fmtRGB (255, 0, 0) = ("ff0000").data := by
  show fmtHex02 255 ++ fmtHex02 0 ++ fmtHex02 0 = _
  rw [show fmtHex02 255 = hexDigitsOf 255 from if_neg (by omega)]
  rw [show hexDigitsOf 255 = (Nat.digits 16 255).reverse.map Nat.digitChar from if_neg (by omega)]
  rw [digits16_255]
  rfl

theorem decodePixelChars_neg65536 : decodePixelChars (-65536) = ("ff0000").data := by
  unfold decodePixelChars intToHex
  rw [if_pos (by decide)]
  have hmask : ((-65536 : Int) % 2 ^ 32).toNat = 4294901760 := by decide
  rw [hmask]
  rw [show hexDigitsOf 4294901760
        = (Nat.digits 16 4294901760).reverse.map Nat.digitChar from if_neg (by omega)]
  rw [digits16_ffff0000]
  rfl

/-! ## Claim C2: signed packing of pure red -/

/-- **C2** — Pure red `(255,0,0)` formats to the pixel string `ff0000`; with
the forced alpha prefix it packs to the signed 32-bit value `-65536`
(pattern `0xFFFF0000`); and decoding `-65536` reproduces the string `ff0000`,
which parses back to `(255,0,0)`. -/
theorem claim_C2_signed_packing_red :
    fmtRGB (255, 0, 0) = ("ff0000").data
      ∧ hexToInt ('f' :: 'f' :: ("ff0000").data) = some (-65536)
      ∧ decodePixelChars (-65536) = ("ff0000").data
      ∧ parseRGBpix (("ff0000").data) = some (255, 0, 0) := by
  refine ⟨fmtRGB_red, by decide, decodePixelChars_neg65536, by decide⟩


/-! ## The pixel encode/decode round trip -/

theorem mapOpt_exists_of_forall {α β : Type} {f : α → Option β} {P : β → Prop} :
    ∀ l : List α, (∀ a ∈ l, ∃ b, f a = some b ∧ P b) →
      ∃ r, mapOpt f l = some r ∧ ∀ b ∈ r, P b := by
  intro l h
  induction l with
  | nil => exact ⟨[], rfl, by simp⟩
  | cons a l ih =>
    obtain ⟨b, hb, hPb⟩ := h a (List.mem_cons_self a l)
    obtain ⟨r, hr, hPr⟩ := ih fun x hx => h x (List.mem_cons_of_mem a hx)
    refine ⟨b :: r, ?_, ?_⟩
    · simp [mapOpt, hb, hr]
    · intro c hc
      rcases List.mem_cons.mp hc with rfl | hc
      · exact hPb
      · exact hPr c hc

theorem mapOpt_roundtrip {α β : Type} {f : α → Option β} {g : β → α} :
    ∀ l : List α, (∀ a ∈ l, ∃ b, f a = some b ∧ g b = a) →
      ∃ r, mapOpt f l = some r ∧ r.map g = l := by
  intro l h
  induction l with
  | nil => exact ⟨[], rfl, rfl⟩
  | cons a l ih =>
    obtain ⟨b, hb, hgb⟩ := h a (List.mem_cons_self a l)
    obtain ⟨r, hr, hgr⟩ := ih fun x hx => h x (List.mem_cons_of_mem a hx)
    refine ⟨b :: r, ?_, ?_⟩
    · simp [mapOpt, hb, hr]
    · simp [hgb, hgr]

theorem validPixelHex_parts {p : PyStr} (hp : validPixelHex p = true) :
    p.length = 6 ∧ ∀ c ∈ p, isLowerHexDigit c = true := by
  unfold validPixelHex at hp
  simp only [Bool.and_eq_true, beq_iff_eq, List.all_eq_true] at hp
  exact ⟨hp.1, hp.2⟩

/-- Every individual step of the journey of a well-formed pixel string
through `hexToInt` (with the forced `ff` alpha prefix) and back through
`intToHex(...)[4:]`: the packed value is the strictly negative signed
reinterpretation of `0xFF000000 + value(p)`, and decoding it restores `p`
exactly. -/
theorem pixel_roundtrip (p : PyStr) (hp : validPixelHex p = true) :
    ∃ z : Int, hexToInt ('f' :: 'f' :: p) = some z
      ∧ z < 0 ∧ -(2 ^ 31) ≤ z ∧ decodePixelChars z = p := by
  obtain ⟨hlen, hhex⟩ := validPixelHex_parts hp
  set A : List Nat := (p.map hexCharVal).reverse with hA
  have hAlen : A.length = 6 := by simp [hA, hlen]
  have hAlt : ∀ d ∈ A, d < 16 := by
    intro d hd
    rw [hA, List.mem_reverse, List.mem_map] at hd
    obtain ⟨c, _, rfl⟩ := hd
    exact hexCharVal_lt c
  set W : Nat := Nat.ofDigits 16 A with hW
  have hWlt : W < 16 ^ 6 := by
    have := Nat.ofDigits_lt_base_pow_length (b := 16) (l := A) (by norm_num) hAlt
    rwa [hAlen] at this
  set V : Nat := Nat.ofDigits 16 (A ++ [15, 15]) with hV
  have hVval : V = W + 16 ^ 6 * 255 := by
    rw [hV, Nat.ofDigits_append, hAlen, hW]
    norm_num [Nat.ofDigits]
  have hVlo : 4278190080 ≤ V := by omega
  have hVhi : V < 4294967296 := by
    have : (16 : Nat) ^ 6 * 255 = 4278190080 := by norm_num
    omega
  -- the encoded value
  have henc : hexToInt ('f' :: 'f' :: p) = some ((V : Int) - 2 ^ 32) := by
    unfold hexToInt
    rw [if_pos ?side]
    case side =>
      constructor
      · simp [hlen]
      · intro c hc
        rcases List.mem_cons.mp hc with rfl | hc
        · rfl
        rcases List.mem_cons.mp hc with rfl | hc
        · rfl
        · exact isHexDigitChar_of_lower (hhex c hc)
    have hval : hexStrVal ('f' :: 'f' :: p) = V := by
      rw [hexStrVal_def, hV]
      congr 1
      simp [hA]
      rfl
    rw [hval]
    unfold toSigned32
    rw [if_neg (by push_cast; omega)]
  have hneg : (V : Int) - 2 ^ 32 < 0 := by push_cast; omega
  refine ⟨(V : Int) - 2 ^ 32, henc, hneg, by push_cast; omega, ?_⟩
  -- the decoded string
  have hdigits : Nat.digits 16 V = A ++ [15, 15] := by
    rw [hV]
    refine Nat.digits_ofDigits 16 (by norm_num) _ ?_ ?_
    · intro d hd
      rcases List.mem_append.mp hd with hd | hd
      · exact hAlt d hd
      · rcases List.mem_cons.mp hd with rfl | hd
        · norm_num
        · simp at hd
          omega
    · intro _
      simp [List.getLast_append]
  unfold decodePixelChars intToHex
  rw [if_pos hneg]
  have hmask : (((V : Int) - 2 ^ 32) % 2 ^ 32).toNat = V := by
    have h1 : ((V : Int) - 2 ^ 32) % 2 ^ 32 = (V : Int) := by
      have : (0 : Int) ≤ (V : Int) ∧ (V : Int) < 2 ^ 32 := by push_cast; omega
      omega
    rw [h1, Int.toNat_natCast]
  rw [hmask]
  have hVne : V ≠ 0 := by omega
  rw [show hexDigitsOf V = (Nat.digits 16 V).reverse.map Nat.digitChar from if_neg hVne]
  rw [hdigits]
  have hrev : (A ++ [15, 15]).reverse = 15 :: 15 :: p.map hexCharVal := by
    simp [hA]
  rw [hrev]
  simp only [List.map_cons, List.map_map, List.drop]
  have : p.map (Nat.digitChar ∘ hexCharVal) = p := by
    have hcongr : ∀ c ∈ p, (Nat.digitChar ∘ hexCharVal) c = id c := fun c hc =>
      digitChar_hexCharVal (hhex c hc)
    rw [List.map_congr_left hcongr, List.map_id]
  exact this

/-! ## Claim C9: encoded pixel integers are negative -/

/-- **C9** — For every canvas whose pixel strings are well-formed six-digit
lowercase hex, every integer the encoder writes into the `pixels` array is
strictly negative: the forced `0xFF` alpha byte sets bit 31 of the 32-bit
two's-complement pattern. -/
theorem claim_C9_encoded_pixels_negative (img : JopImage)
    (h : ∀ p ∈ img.pixels, validPixelHex p = true) :
    ∃ f, img.saveJopImage = some f ∧ ∀ v ∈ f.pixels, v < 0 := by
  obtain ⟨r, hr, hneg⟩ := mapOpt_exists_of_forall (P := fun z : Int => z < 0) img.pixels
    (fun p hp => by
      obtain ⟨z, hz, hzneg, _, _⟩ := pixel_roundtrip p (h p hp)
      exact ⟨z, hz, hzneg⟩)
  refine ⟨⟨1, img.canvasType.value, r, 2, img.author, img.name, img.title⟩, ?_, hneg⟩
  unfold JopImage.saveJopImage
  rw [hr]
  rfl

/-- **C9, witness**: the single-pixel red canvas. -/
theorem claim_C9_witness :
    (∀ p ∈ oneRedPixelImage.pixels, validPixelHex p = true)
      ∧ ∃ f, oneRedPixelImage.saveJopImage = some f ∧ ∀ v ∈ f.pixels, v < 0 :=
  ⟨by decide, claim_C9_encoded_pixels_negative oneRedPixelImage (by decide)⟩

/-! ## Claim C1: codec round trip -/

/-- **C1** — For every canvas whose pixel strings are well-formed six-digit
lowercase hex, encoding (`saveJopImage`) succeeds and decoding the resulting
file (`fromJopFile`) restores the canvas exactly — pixels, author, title,
name and canvasType; the file carries the write-only constants
`generation = 1` and `v = 2`, and the decoder's result does not depend on
them. -/
theorem claim_C1_roundtrip (img : JopImage)
    (h : ∀ p ∈ img.pixels, validPixelHex p = true) :
    ∃ f, img.saveJopImage = some f
      ∧ JopImage.fromJopFile f = some img
      ∧ f.generation = 1 ∧ f.v = 2
      ∧ ∀ g v : Int,
          JopImage.fromJopFile ⟨g, f.ct, f.pixels, v, f.author, f.name, f.title⟩ = some img := by
  obtain ⟨r, hr, hmap⟩ := mapOpt_roundtrip (g := decodePixelChars) img.pixels
    (fun p hp => by
      obtain ⟨z, hz, _, _, hdec⟩ := pixel_roundtrip p (h p hp)
      exact ⟨z, hz, hdec⟩)
  have hct : JopCanvasType.ofValue img.canvasType.value = some img.canvasType := by
    cases img.canvasType <;> rfl
  have hdecode : ∀ g v : Int,
      JopImage.fromJopFile ⟨g, img.canvasType.value, r, v, img.author, img.name, img.title⟩
        = some img := by
    intro g v
    unfold JopImage.fromJopFile
    simp only [hct, hmap, Option.bind_eq_bind, Option.some_bind]
    rfl
  refine ⟨⟨1, img.canvasType.value, r, 2, img.author, img.name, img.title⟩, ?_,
    hdecode 1 2, rfl, rfl, hdecode⟩
  unfold JopImage.saveJopImage
  rw [hr]
  rfl

/-- **C1, witness**: the single-pixel red canvas round-trips. -/
theorem claim_C1_witness :
    (∀ p ∈ oneRedPixelImage.pixels, validPixelHex p = true)
      ∧ ∃ f, oneRedPixelImage.saveJopImage = some f
          ∧ JopImage.fromJopFile f = some oneRedPixelImage
          ∧ f.generation = 1 ∧ f.v = 2
          ∧ ∀ g v : Int,
              JopImage.fromJopFile ⟨g, f.ct, f.pixels, v, f.author, f.name, f.title⟩
                = some oneRedPixelImage :=
  ⟨by decide, claim_C1_roundtrip oneRedPixelImage (by decide)⟩


/-! ## Claim C5: decoding arbitrary pixel integers -/

theorem list_eq_of_length_eight {α : Type} (l : List α) (h : l.length = 8) :
    ∃ a b c d e f g k, l = [a, b, c, d, e, f, g, k] := by
  rcases l with _ | ⟨a, l⟩
  · simp at h
  rcases l with _ | ⟨b, l⟩
  · simp at h
  rcases l with _ | ⟨c, l⟩
  · simp at h
  rcases l with _ | ⟨d, l⟩
  · simp at h
  rcases l with _ | ⟨e, l⟩
  · simp at h
  rcases l with _ | ⟨f, l⟩
  · simp at h
  rcases l with _ | ⟨g, l⟩
  · simp at h
  rcases l with _ | ⟨k, l⟩
  · simp at h
  rcases l with _ | ⟨m, l⟩
  · exact ⟨a, b, c, d, e, f, g, k, rfl⟩
  · simp at h

/-- **C5, counterexample** — Decoding does *not* recover the low three bytes
of every 32-bit signed pixel integer: for `n = 255` (unsigned pattern
`0x000000FF`, bytes `(0, 0, 255)`) Python's `hex` gives the four-character
string `0xff`, so the fixed `[4:]` slice leaves the empty string and the
parse fails instead of producing `(0, 0, 255)`. -/
theorem claim_C5_counterexample :
    decodePixelChars 255 = [] ∧ parseRGBpix (decodePixelChars 255) = none
      ∧ parseRGBpix (decodePixelChars 255)
          ≠ some (unsigned32 255 / 65536 % 256, unsigned32 255 / 256 % 256,
              unsigned32 255 % 256) := by
  have hdec : decodePixelChars 255 = [] := by
    unfold decodePixelChars intToHex
    rw [if_neg (by decide)]
    have h255 : ((255 : Int)).toNat = 255 := rfl
    rw [h255]
    rw [show hexDigitsOf 255 = (Nat.digits 16 255).reverse.map Nat.digitChar from
      if_neg (by omega)]
    rw [digits16_255]
    rfl
  refine ⟨hdec, by rw [hdec]; rfl, by rw [hdec]; decide⟩

/-- **C5, amended** — The byte-splitting contract holds exactly when the
unsigned 32-bit pattern of the pixel integer is at least `0x10000000` (eight
hex digits), which covers every negative integer — in particular everything
the encoder ever writes — but not the non-negative integers below `2^28`,
where the decoder slices wrongly (see the counterexample). -/
theorem claim_C5_amended (n : Int) (h1 : -(2 ^ 31) ≤ n) (h2 : n < 2 ^ 31)
    (h3 : n < 0 ∨ (2 ^ 28 : Int) ≤ n) :
    parseRGBpix (decodePixelChars n)
      = some (unsigned32 n / 65536 % 256, unsigned32 n / 256 % 256, unsigned32 n % 256) := by
  have hmv : (if n < 0 then n % 2 ^ 32 else n).toNat = unsigned32 n := by
    unfold unsigned32
    split_ifs with hn
    · rfl
    · congr 1
      omega
  have hlo : 2 ^ 28 ≤ unsigned32 n := by
    unfold unsigned32
    rcases h3 with h3 | h3 <;> omega
  have hhi : unsigned32 n < 2 ^ 32 := by
    unfold unsigned32
    omega
  set m := unsigned32 n with hm
  clear_value m
  have hlog : Nat.log 16 m = 7 :=
    Nat.log_eq_of_pow_le_of_lt_pow (by norm_num; omega) (by norm_num; omega)
  have hlen8 : (Nat.digits 16 m).length = 8 := by
    rw [Nat.digits_len 16 m (by norm_num) (by omega), hlog]
  obtain ⟨d0, d1, d2, d3, d4, d5, d6, d7, hd⟩ := list_eq_of_length_eight _ hlen8
  have hdlt : ∀ d ∈ Nat.digits 16 m, d < 16 := fun d hmem =>
    Nat.digits_lt_base (by norm_num) hmem
  rw [hd] at hdlt
  have hb0 : d0 < 16 := hdlt _ (by simp)
  have hb1 : d1 < 16 := hdlt _ (by simp)
  have hb2 : d2 < 16 := hdlt _ (by simp)
  have hb3 : d3 < 16 := hdlt _ (by simp)
  have hb4 : d4 < 16 := hdlt _ (by simp)
  have hb5 : d5 < 16 := hdlt _ (by simp)
  have hofd := Nat.ofDigits_digits 16 m
  rw [hd] at hofd
  have hexp : d0 + 16 * (d1 + 16 * (d2 + 16 * (d3 + 16 * (d4 + 16 * (d5 + 16 * (d6 + 16 * d7))))))
      = m := by
    simpa [Nat.ofDigits] using hofd
  have hchars : decodePixelChars n
      = [Nat.digitChar d5, Nat.digitChar d4, Nat.digitChar d3, Nat.digitChar d2,
          Nat.digitChar d1, Nat.digitChar d0] := by
    unfold decodePixelChars intToHex
    rw [hmv]
    rw [show hexDigitsOf m = (Nat.digits 16 m).reverse.map Nat.digitChar from
      if_neg (by omega)]
    rw [hd]
    rfl
  rw [hchars]
  unfold parseRGBpix
  have hpair : ∀ a b : Nat, a < 16 → b < 16 →
      pyIntHex [Nat.digitChar a, Nat.digitChar b] = some (16 * a + b) := by
    intro a b ha hb
    unfold pyIntHex
    rw [if_pos ?cond]
    case cond =>
      refine ⟨by simp, ?_⟩
      intro c hc
      rcases List.mem_cons.mp hc with rfl | hc
      · exact isHexDigitChar_digitChar a ha
      rcases List.mem_cons.mp hc with rfl | hc
      · exact isHexDigitChar_digitChar b hb
      · simp at hc
    unfold hexStrVal
    simp [List.foldl, hexCharVal_digitChar a ha, hexCharVal_digitChar b hb]
  simp only [List.take, List.drop]
  rw [hpair d5 d4 hb5 hb4, hpair d3 d2 hb3 hb2, hpair d1 d0 hb1 hb0]
  have e1 : m / 65536 % 256 = 16 * d5 + d4 := by omega
  have e2 : m / 256 % 256 = 16 * d3 + d2 := by omega
  have e3 : m % 256 = 16 * d1 + d0 := by omega
  rw [e1, e2, e3]
  rfl

/-- **C5, witness** for the amended theorem at the encoder's pure-red value
`-65536`. -/
theorem claim_C5_witness :
    parseRGBpix (decodePixelChars (-65536)) = some (255, 0, 0) := by
  have h := claim_C5_amended (-65536) (by decide) (by decide) (Or.inl (by decide))
  have hu : unsigned32 (-65536) = 4294901760 := by decide
  rw [hu] at h
  simpa using h


/-! ## Claim C6: grid cell names -/

theorem natDigitsAux_eq_digits :
    ∀ fuel n, n ≠ 0 → n < fuel → natDigitsAux fuel n = Nat.digits 10 n := by
  intro fuel
  induction fuel with
  | zero => intro n _ hf; omega
  | succ fuel ih =>
    intro n hn hf
    unfold natDigitsAux
    split_ifs with h10
    · exact (Nat.digits_of_lt 10 n hn h10).symm
    · push_neg at h10
      rw [ih (n / 10) (by omega) (by omega)]
      exact (Nat.digits_def' (by norm_num) (by omega)).symm

theorem natStr_eq_digits (n : Nat) :
    natStr n = if n = 0 then ['0'] else (Nat.digits 10 n).reverse.map Nat.digitChar := by
  unfold natStr
  split_ifs with h
  · rfl
  · rw [natDigitsAux_eq_digits _ n h (by omega)]

theorem digitChar_inj_lt10 :
    ∀ a, a < 10 → ∀ b, b < 10 → Nat.digitChar a = Nat.digitChar b → a = b := by
  decide

theorem digitChar_eq_zeroChar : ∀ d, d < 10 → Nat.digitChar d = '0' → d = 0 := by
  decide

theorem map_digitChar_inj :
    ∀ l1 l2 : List Nat, (∀ d ∈ l1, d < 10) → (∀ d ∈ l2, d < 10) →
      l1.map Nat.digitChar = l2.map Nat.digitChar → l1 = l2 := by
  intro l1
  induction l1 with
  | nil =>
    intro l2 _ _ h
    cases l2 with
    | nil => rfl
    | cons b l2 => simp at h
  | cons a l1 ih =>
    intro l2 h1 h2 h
    cases l2 with
    | nil => simp at h
    | cons b l2 =>
      simp only [List.map_cons, List.cons.injEq] at h
      have hab := digitChar_inj_lt10 a (h1 a (by simp)) b (h2 b (by simp)) h.1
      rw [hab, ih l2 (fun d hd => h1 d (by simp [hd])) (fun d hd => h2 d (by simp [hd])) h.2]

theorem natStr_ne_zeroStr {b : Nat} (hb : b ≠ 0) : natStr b ≠ ['0'] := by
  rw [natStr_eq_digits, if_neg hb]
  intro h
  have hlen := congrArg List.length h
  simp only [List.length_map, List.length_reverse, List.length_cons, List.length_nil] at hlen
  rcases hds : Nat.digits 10 b with _ | ⟨d, ds⟩
  · rw [hds] at hlen
    simp at hlen
  rcases ds with _ | ⟨d2, ds⟩
  · rw [hds] at h
    simp only [List.reverse_cons, List.reverse_nil, List.nil_append, List.map_cons,
      List.map_nil, List.cons.injEq] at h
    have hd10 : d < 10 := Nat.digits_lt_base (by norm_num) (by rw [hds]; simp)
    have hdz : d = 0 := digitChar_eq_zeroChar d hd10 h.1
    have hval := Nat.ofDigits_digits 10 b
    rw [hds, hdz] at hval
    have : b = 0 := by simpa [Nat.ofDigits] using hval.symm
    exact hb this
  · rw [hds] at hlen
    simp at hlen

theorem natStr_injective : Function.Injective natStr := by
  intro a b h
  by_cases ha : a = 0 <;> by_cases hb : b = 0
  · omega
  · exfalso
    rw [ha] at h
    exact natStr_ne_zeroStr hb h.symm
  · exfalso
    rw [hb] at h
    exact natStr_ne_zeroStr ha h
  · rw [natStr_eq_digits, natStr_eq_digits, if_neg ha, if_neg hb] at h
    have hrev := map_digitChar_inj _ _
      (fun d hd => Nat.digits_lt_base (by norm_num) (List.mem_reverse.mp hd))
      (fun d hd => Nat.digits_lt_base (by norm_num) (List.mem_reverse.mp hd)) h
    exact Nat.digits_inj_iff.mp (List.reverse_injective hrev)

theorem cellName_injective : Function.Injective cellName := by
  intro a b h
  unfold cellName at h
  have h2 := List.append_cancel_left h
  simp only [List.cons.injEq, true_and] at h2
  exact natStr_injective h2

/-! ### Destructuring successful `mapOpt` runs -/

theorem mapOpt_cons_some {α β : Type} {f : α → Option β} {a : α} {l : List α} {r : List β}
    (h : mapOpt f (a :: l) = some r) :
    ∃ b r', f a = some b ∧ mapOpt f l = some r' ∧ r = b :: r' := by
  unfold mapOpt at h
  cases hfa : f a with
  | none => rw [hfa] at h; simp at h
  | some b =>
    rw [hfa] at h
    cases hl : mapOpt f l with
    | none => rw [hl] at h; simp at h
    | some r' =>
      rw [hl] at h
      simp only [Option.bind_eq_bind, Option.some_bind, Option.pure_def,
        Option.some.injEq] at h
      exact ⟨b, r', rfl, rfl, h.symm⟩

theorem mapOpt_map_eq {α β γ : Type} {f : α → Option β} {proj : β → γ} {g : α → γ} :
    ∀ {l : List α} {r : List β}, mapOpt f l = some r →
      (∀ a ∈ l, ∀ b, f a = some b → proj b = g a) → r.map proj = l.map g := by
  intro l
  induction l with
  | nil =>
    intro r h _
    unfold mapOpt at h
    simp only [Option.some.injEq] at h
    rw [← h]
    rfl
  | cons a l ih =>
    intro r h hg
    obtain ⟨b, r', hb, hr', rfl⟩ := mapOpt_cons_some h
    simp only [List.map_cons]
    rw [hg a (by simp) b hb, ih hr' (fun x hx => hg x (by simp [hx]))]

theorem JopImage.fromImage_name {image : PILImage} {canvas : JopCanvasType}
    {title author name : PyStr} {j : JopImage}
    (h : JopImage.fromImage image canvas title author name = some j) : j.name = name := by
  unfold JopImage.fromImage at h
  simp only [Option.bind_eq_bind, Option.bind_eq_some, Option.pure_def,
    Option.some.injEq] at h
  obtain ⟨grid, _, rows, _, rfl⟩ := h
  rfl

theorem flatten_map_range_mul {γ : Type} (h w : Nat) (g : Nat → γ) :
    ((List.range h).map fun y => (List.range w).map fun x => g (y * w + x)).flatten
      = (List.range (h * w)).map g := by
  induction h with
  | zero => simp
  | succ h ih =>
    rw [List.range_succ, List.map_append, List.flatten_append, ih]
    rw [Nat.succ_mul, List.range_add, List.map_append, List.map_map]
    simp [Function.comp_def]

/-- **C6** — For every successful grid build, the cell visited at row-major
index `y * w + x` is named `<uuid>_<rootId + (y * w + x)>` (the id counter
starts at the generated root id and increments once per cell), and
consequently all `w * h` names are pairwise distinct, so the constructor's
`areNamesValid` check passes. -/
theorem claim_C6_grid_names (w h : Nat) (image : PILImage) (title author : PyStr)
    (canvas : JopCanvasType) (rootId : Nat) (mb : JopMultiBlockImage)
    (hmb : JopMultiBlockImage.fromImage (w, h) image title author canvas rootId = some mb) :
    mb.imageGrid.map (fun row => row.map JopImage.name)
        = (List.range h).map (fun y => (List.range w).map fun x =>
            cellName (rootId + (y * w + x)))
      ∧ areNamesValid mb = true := by
  unfold JopMultiBlockImage.fromImage at hmb
  simp only [Option.bind_eq_bind, Option.bind_eq_some, Option.pure_def,
    Option.some.injEq] at hmb
  obtain ⟨gridIndicies, hgi, rows, hrows, hmbEq⟩ := hmb
  have hgrid : mb.imageGrid = rows := by rw [← hmbEq]
  have hnames : mb.imageGrid.map (fun row => row.map JopImage.name)
      = (List.range h).map (fun y => (List.range w).map fun x =>
          cellName (rootId + (y * w + x))) := by
    rw [hgrid]
    refine mapOpt_map_eq hrows ?_
    intro y _ row hrow
    refine mapOpt_map_eq hrow ?_
    intro x _ cell hcell
    simp only [Option.bind_eq_bind, Option.bind_eq_some] at hcell
    obtain ⟨tl, _, hcell⟩ := hcell
    exact JopImage.fromImage_name hcell
  refine ⟨hnames, ?_⟩
  have hflat : namesList mb
      = (List.range (h * w)).map fun k => cellName (rootId + k) := by
    unfold namesList
    rw [show (mb.imageGrid.flatMap fun row => row.map JopImage.name)
        = (mb.imageGrid.map fun row => row.map JopImage.name).flatten from rfl]
    rw [hnames]
    exact flatten_map_range_mul h w fun k => cellName (rootId + k)
  unfold areNamesValid
  rw [hflat]
  have hnodup : ((List.range (h * w)).map fun k => cellName (rootId + k)).Nodup := by
    refine List.Nodup.map ?_ (List.nodup_range (h * w))
    intro k1 k2 hk
    have := cellName_injective hk
    omega
  rw [List.Nodup.dedup hnodup]
  exact beq_self_eq_true _

/-- **C6, witness**: a `2 × 2` grid of SMALL canvases built from a black
`32 × 32` source with root id `5` — names `5, 6, 7, 8` in row-major order,
all distinct. -/
theorem claim_C6_witness :
    ∃ mb, JopMultiBlockImage.fromImage (2, 2) (blackImage 32 32) [] []
          JopCanvasType.SMALL 5 = some mb
      ∧ mb.imageGrid.map (fun row => row.map JopImage.name)
          = (List.range 2).map (fun y => (List.range 2).map fun x =>
              cellName (5 + (y * 2 + x)))
      ∧ areNamesValid mb = true := by
  have hs : (JopMultiBlockImage.fromImage (2, 2) (blackImage 32 32) [] []
      JopCanvasType.SMALL 5).isSome = true := by decide
  obtain ⟨mb, hmb⟩ := Option.isSome_iff_exists.mp hs
  have h := claim_C6_grid_names 2 2 (blackImage 32 32) [] [] JopCanvasType.SMALL 5 mb hmb
  exact ⟨mb, hmb, h.1, h.2⟩


/-! ## Claim C3: single-canvas pixel count -/

set_option maxRecDepth 10000

/-- **C3 / code bug** — `fromImage` does *not* always produce `W * H` pixels
when the source is at least the native canvas size.  For the spec's own
`70 × 70` example with `CanvasType.LARGE` (`32 × 32`), the tile size is
`(⌊70/32⌋, ⌊70/32⌋) = (2, 2)` and `np.arange(0, 70, 2)` yields `35` origins
per axis (origins are only required to be `< 70`, so the trailing partial
tiles at `68` are kept), giving `35 * 35 = 1225` pixels instead of `1024` —
a canvas the game format (and the code's own `getImage`, which indexes
`pixels[y * 32 + x]`) cannot represent consistently. -/
theorem claim_C3_pixel_count_diverges :
    (JopImage.fromImage (blackImage 70 70) JopCanvasType.LARGE [] [] []).map
        (fun j => j.pixels.length) = some 1225
      ∧ (1225 : Nat) ≠ 32 * 32 := by
  constructor
  · decide
  · decide

end JoP
